import Mathlib

/-
Verification development for the AutoCurate repository.

The Python code is shallowly embedded in Lean 4: Python strings become
`List Char`, Python slicing/stripping/rfind are modelled explicitly, and
the stateful agent methods become explicit state-passing functions.
Every definition is translated from the source files named in its doc
comment; definitions whose name starts with `spec` are instead written
from the specification's words, for refinement comparison.
-/

namespace AutoCurate

/-! ## Text chunking (`src/utils/text_processor.py`) -/

/-- Python `text[s:e]` slicing on a `List Char` (clamped, as in Python). -/
def pySlice (text : List Char) (s e : Nat) : List Char :=
  (text.drop s).take (e - s)

/-- Python `str.strip()`: drop whitespace from both ends. -/
def pyStrip (s : List Char) : List Char :=
  ((s.dropWhile Char.isWhitespace).reverse.dropWhile Char.isWhitespace).reverse

/-- Does `pat` occur in `text` starting at position `pos`? -/
def matchPat (text pat : List Char) (pos : Nat) : Bool :=
  (text.drop pos).take pat.length == pat

/-- Python `text.rfind(pat, s, e)`: the largest position `p` with
`s ≤ p`, `p + pat.length ≤ e` and `pat` occurring at `p`, or `-1`. -/
def pyRfind (text pat : List Char) (s e : Nat) : Int :=
  match ((List.range e).filter
      (fun p => decide (s ≤ p) && decide (p + pat.length ≤ e) && matchPat text pat p)).getLast? with
  | some p => (p : Int)
  | none => -1

/-- The sentence enders searched by `TextProcessor._find_sentence_boundary`. -/
def sentenceEnders : List (List Char) :=
  [['.', ' '], ['!', ' '], ['?', ' '], ['.', '\n'], ['!', '\n'], ['?', '\n']]

/-- Embedding of `TextProcessor._find_sentence_boundary(text, start, end)`
(src/utils/text_processor.py lines 105-121). -/
def findSentenceBoundary (text : List Char) (s e : Nat) : Int :=
  let best := sentenceEnders.foldl
    (fun best ender =>
      let pos := pyRfind text ender s e
      if best < pos then pos + ender.length else best)
    (-1)
  if (s : Int) < best then best
  else
    let lastSpace := pyRfind text [' '] s e
    if (s : Int) < lastSpace then lastSpace else (e : Int)

/-- The end position chosen for the chunk starting at `start`
(`chunk_text` loop body, lines 85-94). -/
def chunkEnd (text : List Char) (chunkSize start : Nat) : Nat :=
  let end0 := start + chunkSize
  if end0 < text.length then
    let searchStart := max start (end0 - 100)
    let se := findSentenceBoundary text searchStart end0
    if (start : Int) < se then se.toNat else end0
  else end0

/-- The next value of `start` after one loop iteration
(`start = max(start + 1, end - overlap)`, line 101). -/
def nextStart (text : List Char) (chunkSize overlap start : Nat) : Nat :=
  max (start + 1) (chunkEnd text chunkSize start - overlap)

/-- The `(start, end)` windows walked by the `chunk_text` loop, with
explicit fuel (the loop advances `start` by at least one per iteration,
so `text.length - start` fuel is always enough; see the fuel lemma). -/
def chunkSpansAux (text : List Char) (chunkSize overlap : Nat) :
    Nat → Nat → List (Nat × Nat)
  | 0, _ => []
  | fuel + 1, start =>
    if start < text.length then
      (start, chunkEnd text chunkSize start) ::
        chunkSpansAux text chunkSize overlap fuel (nextStart text chunkSize overlap start)
    else []

/-- The `(start, end)` windows walked by the `chunk_text` loop from `start`. -/
def chunkSpans (text : List Char) (chunkSize overlap start : Nat) : List (Nat × Nat) :=
  chunkSpansAux text chunkSize overlap (text.length - start) start

/-- Embedding of `TextProcessor.chunk_text(text, chunk_size, overlap)`
(src/utils/text_processor.py lines 66-103): short or empty texts are
returned whole; otherwise each window's slice is stripped and kept only
if non-empty. -/
def chunk_text (text : List Char) (chunkSize overlap : Nat) : List (List Char) :=
  if text.length ≤ chunkSize then
    if text = [] then [] else [text]
  else
    (chunkSpans text chunkSize overlap 0).filterMap (fun se =>
      let c := pyStrip (pySlice text se.1 se.2)
      if c = [] then none else some c)

/-- The loop windows together with the single short-text window: the
spans from which `chunk_text`'s output is produced. -/
def chunkWindows (text : List Char) (chunkSize overlap : Nat) : List (Nat × Nat) :=
  if text.length ≤ chunkSize then
    if text = [] then [] else [(0, text.length)]
  else chunkSpans text chunkSize overlap 0

/-- The windows whose stripped slice is non-empty, i.e. the spans of the
chunks actually appended to the result by `chunk_text`. -/
def producedSpans (text : List Char) (chunkSize overlap : Nat) : List (Nat × Nat) :=
  if text.length ≤ chunkSize then
    if text = [] then [] else [(0, text.length)]
  else
    (chunkSpans text chunkSize overlap 0).filter
      (fun se => !(pyStrip (pySlice text se.1 se.2) == []))

/-! ## Metadata values and filters (`src/agents/vector_storage_agent.py`) -/

/-- A scalar metadata value (string, integer, boolean or `None`), as
stored in chunk metadata by `VectorStorageAgent._chunk_content`. -/
inductive Prim where
  | pStr (s : String)
  | pInt (n : Int)
  | pBool (b : Bool)
  | pNone
deriving DecidableEq, Repr

/-- A filter value: a scalar (exact match) or a list (membership), as
accepted by `VectorStorageAgent._matches_filters`. -/
inductive FVal where
  | scalar (p : Prim)
  | list (ps : List Prim)
deriving DecidableEq, Repr

/-- Embedding of `VectorStorageAgent._matches_filters(metadata, filters)`
(src/agents/vector_storage_agent.py lines 501-514): a missing key fails;
a list filter value requires membership; a scalar requires equality. -/
def matchesFilters (metadata : List (String × Prim)) : List (String × FVal) → Bool
  | [] => true
  | (k, v) :: rest =>
    match metadata.lookup k with
    | none => false
    | some m =>
      match v with
      | FVal.scalar p => if m = p then matchesFilters metadata rest else false
      | FVal.list ps => if ps.contains m then matchesFilters metadata rest else false

/-! ## FAISS backend state and search (`src/agents/vector_storage_agent.py`) -/

/-- The in-memory FAISS backend state built by `_setup_faiss` and
`_store_faiss_vector`: the stored vectors, the FAISS-position-to-id map
and the per-id metadata. -/
structure FaissState where
  entries : List (List Int)
  idMap : List (Int × String)
  metadata : List (String × List (String × Prim))

/-- Inner product of two stored vectors. -/
def dot (a b : List Int) : Int :=
  (a.zip b).foldl (fun acc p => acc + p.1 * p.2) 0

/-- Insert a `(score, index)` pair into a score-descending list. -/
def insertDesc (x : Int × Int) : List (Int × Int) → List (Int × Int)
  | [] => [x]
  | y :: ys => if y.1 < x.1 then x :: y :: ys else y :: insertDesc x ys

/-- Sort `(score, index)` pairs by descending score. -/
def sortDesc : List (Int × Int) → List (Int × Int)
  | [] => []
  | x :: xs => insertDesc x (sortDesc xs)

/-- The raw FAISS `index.search(query, k)` behaviour: the `k` best
`(score, index)` pairs by descending score, padded with index `-1`
entries when the index holds fewer than `k` vectors. -/
def faissRawSearch (entries : List (List Int)) (q : List Int) (k : Nat) :
    List (Int × Int) :=
  let scored := entries.enum.map (fun p => (dot p.2 q, (p.1 : Int)))
  let top := (sortDesc scored).take k
  top ++ List.replicate (k - top.length) (0, -1)

/-- Embedding of `VectorStorageAgent._search_faiss(query, limit, filters)`
(src/agents/vector_storage_agent.py lines 431-456): raw results whose
index is absent from `id_map` are skipped, then the metadata filter is
applied when filters are given. -/
def searchFaiss (st : FaissState) (q : List Int) (limit : Nat)
    (filters : Option (List (String × FVal))) :
    List (String × Int × List (String × Prim)) :=
  (faissRawSearch st.entries q limit).filterMap (fun si =>
    match st.idMap.lookup si.2 with
    | none => none
    | some vid =>
      let md := (st.metadata.lookup vid).getD []
      match filters with
      | some fs => if matchesFilters md fs then some (vid, si.1, md) else none
      | none => some (vid, si.1, md))

/-! ## Content retrieval ranking (`src/agents/summary_agent.py`) -/

/-- A content item as seen by `SummaryAgent._vector_filter_content`:
only its database id matters to the ranking. -/
structure ContentItem where
  id : Nat
deriving DecidableEq, Repr

/-- Embedding of `SummaryAgent._vector_filter_content(content_items, topics, max_items)`
(src/agents/summary_agent.py lines 190-237), success path.  `rs` is the
`content_item_id` metadata of each search result (in the similarity
order the search returned; `none` when the key is missing).  The first
`max_items` results' ids are collected into a set, the eligible items
are filtered by membership preserving their own (recency) order, the
remaining eligible items are appended until `max_items`, and the result
is truncated to `max_items`. -/
def vectorFilterContent (contentItems : List ContentItem) (rs : List (Option Nat))
    (maxItems : Nat) : List ContentItem :=
  let relevantIds := (rs.take maxItems).filterMap id
  let filtered := contentItems.filter (fun it => relevantIds.contains it.id)
  let filtered2 :=
    if filtered.length < maxItems then
      filtered ++ (contentItems.filter (fun it => !(relevantIds.contains it.id))).take
        (maxItems - filtered.length)
    else filtered
  filtered2.take maxItems

/-- Embedding of `_vector_filter_content` including its `except` handler
(src/agents/summary_agent.py lines 239-242): when the vector search
raises, the method returns the first `max_items` eligible (recency
ordered) items instead. -/
def vectorFilterContentRun (contentItems : List ContentItem)
    (searchOutcome : Except Unit (List (Option Nat))) (maxItems : Nat) :
    List ContentItem :=
  match searchOutcome with
  | Except.error _ => contentItems.take maxItems
  | Except.ok rs => vectorFilterContent contentItems rs maxItems

/-- Modelled from the spec sentence for claim C1 (refinement
comparison): items found via vector search come first in the order the
search returned them, then the remaining eligible items in recency
order, truncated to the per-digest maximum. -/
def specRankC1 (items : List ContentItem) (rs : List (Option Nat))
    (maxItems : Nat) : List ContentItem :=
  let foundIds := (rs.take maxItems).filterMap id
  let foundItems := foundIds.filterMap (fun i => items.find? (fun it => it.id == i))
  let backfill := items.filter (fun it => !(foundIds.contains it.id))
  (foundItems ++ backfill).take maxItems

/-! ## Content indexing (`src/agents/vector_storage_agent.py`) -/

/-- The observable state touched by
`VectorStorageAgent.process_content_item`: stored vectors and chunk
records (keyed by `(content_item_id, chunk_index)`), the item's
`processing_status` and its `is_processed` flag. -/
structure IndexState where
  storedVectors : List (Nat × Nat)
  chunkRecords : List (Nat × Nat)
  processingStatus : String
  isProcessed : Bool
deriving DecidableEq, Repr

/-- Embedding of `VectorStorageAgent.process_content_item(content_item)`
(src/agents/vector_storage_agent.py lines 153-232).  `chunks` is the
chunking result, `embedResult` the outcome of the single
`_generate_embeddings` call (`Except.error` when it raised, in which
case the outer handler marks the item `failed`).  With no chunks, or
when the embedding count differs from the chunk count, the method
returns `False` before touching the databases; otherwise all vectors
and chunk records are stored and the item is marked `completed`. -/
def processContentItem (itemId : Nat) (chunks : List (List Char))
    (embedResult : Except Unit (List (List Int))) (st : IndexState) :
    Bool × IndexState :=
  if chunks.isEmpty then (false, st)
  else
    match embedResult with
    | Except.error _ => (false, { st with processingStatus := "failed" })
    | Except.ok embeddings =>
      if embeddings.length ≠ chunks.length then (false, st)
      else
        (true,
          { storedVectors := st.storedVectors
              ++ (List.range chunks.length).map (fun i => (itemId, i)),
            chunkRecords := st.chunkRecords
              ++ (List.range chunks.length).map (fun i => (itemId, i)),
            processingStatus := "completed",
            isProcessed := true })

/-! ## Hosted-API embedding batches (`src/agents/vector_storage_agent.py`) -/

/-- An observable event of `_generate_openai_embeddings`: an embedding
API call on a batch, or the rate-limiting pause (`asyncio.sleep(1)`). -/
inductive EmbedEvent (α : Type) where
  | call (batch : List α)
  | pause
deriving DecidableEq, Repr

/-- The consecutive batches `texts[i:i+100]` for `i = 0, 100, 200, ...`
(fuelled; `l.length` fuel always suffices since each step drops 100). -/
def batchesAux : Nat → List α → List (List α)
  | 0, _ => []
  | fuel + 1, l =>
    if l.isEmpty then [] else l.take 100 :: batchesAux fuel (l.drop 100)

/-- The batch decomposition of `texts` with batch size 100. -/
def batchesOf (l : List α) : List (List α) :=
  batchesAux l.length l

/-- Embedding of `VectorStorageAgent._generate_openai_embeddings(texts)`
(src/agents/vector_storage_agent.py lines 296-322), as the pair of its
event trace and its returned vectors.  `api` maps a batch to the
vectors of the API response; after each batch the code pauses whenever
`len(texts) > batch_size` (i.e. more than one batch is needed). -/
def openaiEmbedAux (api : List α → List β) (totalLen : Nat) :
    Nat → List α → List (EmbedEvent α) × List β
  | 0, _ => ([], [])
  | fuel + 1, remaining =>
    if remaining.isEmpty then ([], [])
    else
      let batch := remaining.take 100
      let vs := api batch
      let rest := openaiEmbedAux api totalLen fuel (remaining.drop 100)
      ((EmbedEvent.call batch
          :: (if 100 < totalLen then [EmbedEvent.pause] else [])) ++ rest.1,
        vs ++ rest.2)

/-- The full `_generate_openai_embeddings` run on `texts`. -/
def generateOpenaiEmbeddings (api : List α → List β) (texts : List α) :
    List (EmbedEvent α) × List β :=
  openaiEmbedAux api texts.length texts.length texts

/-- Concrete embedding oracle used to instantiate the batching theorem. -/
def demoApi (b : List Nat) : List Nat :=
  b.map (fun _ => 0)

/-- Concrete 150-element input, the spec's end-to-end scenario D. -/
def demoTexts : List Nat :=
  List.replicate 150 0

/-! ## User preference updates (`src/agents/user_preference_agent.py`) -/

/-- Python `hasattr(preferences, key)` on the ORM record, modelled as
membership among the record's attribute names. -/
def prefHasattr (rec : List (String × Prim)) (k : String) : Bool :=
  (rec.map Prod.fst).contains k

/-- Python `setattr(preferences, key, value)`: overwrite the attribute
named `k` (attribute names are unique on the record). -/
def prefSetattr (rec : List (String × Prim)) (k : String) (v : Prim) :
    List (String × Prim) :=
  rec.map (fun p => if p.1 = k then (k, v) else p)

/-- The update loop of `UserPreferenceAgent.update_user_preferences`
(src/agents/user_preference_agent.py lines 365-367): each entry whose
key is an attribute of the record is applied, every other key is
skipped. -/
def applyUpdates (rec : List (String × Prim)) (updates : List (String × Prim)) :
    List (String × Prim) :=
  updates.foldl (fun r kv => if prefHasattr r kv.1 then prefSetattr r kv.1 kv.2 else r) rec

/-- Embedding of `UserPreferenceAgent.update_user_preferences(user_id, updates)`
(src/agents/user_preference_agent.py lines 342-384).  `dbPrefs` is the
looked-up preference record (`none` when the user has no record),
`commitOk` whether the database commit succeeds (on failure the
transaction is rolled back).  Returns the success flag and the stored
record. -/
def updateUserPreferences (dbPrefs : Option (List (String × Prim)))
    (updates : List (String × Prim)) (now : Prim) (commitOk : Bool) :
    Bool × Option (List (String × Prim)) :=
  match dbPrefs with
  | none => (false, none)
  | some rec =>
    if commitOk then
      (true, some (prefSetattr (applyUpdates rec updates) "updated_at" now))
    else (false, some rec)

/-! ## Theorems -/

theorem nextStart_gt (text : List Char) (chunkSize overlap start : Nat) :
    start < nextStart text chunkSize overlap start :=
  Nat.lt_of_lt_of_le (Nat.lt_succ_self start) (Nat.le_max_left _ _)

theorem chunkEnd_gt (text : List Char) (chunkSize start : Nat)
    (hcs : 1 ≤ chunkSize) : start < chunkEnd text chunkSize start := by
  unfold chunkEnd
  simp only
  split
  · split
    · rename_i hse
      omega
    · omega
  · omega

theorem nextStart_le_chunkEnd (text : List Char) (chunkSize overlap start : Nat)
    (hcs : 1 ≤ chunkSize) :
    nextStart text chunkSize overlap start ≤ chunkEnd text chunkSize start := by
  have h := chunkEnd_gt text chunkSize start hcs
  unfold nextStart
  omega

theorem chunkSpansAux_fuel (text : List Char) (chunkSize overlap : Nat) :
    ∀ f1 f2 start, text.length - start ≤ f1 → text.length - start ≤ f2 →
      chunkSpansAux text chunkSize overlap f1 start
        = chunkSpansAux text chunkSize overlap f2 start := by
  intro f1
  induction f1 with
  | zero =>
    intro f2 start h1 h2
    have hs : text.length ≤ start := by omega
    cases f2 with
    | zero => rfl
    | succ g =>
      simp only [chunkSpansAux]
      rw [if_neg (by omega)]
  | succ f ih =>
    intro f2 start h1 h2
    cases f2 with
    | zero =>
      have hs : text.length ≤ start := by omega
      simp only [chunkSpansAux]
      rw [if_neg (by omega)]
    | succ g =>
      simp only [chunkSpansAux]
      by_cases hlt : start < text.length
      · rw [if_pos hlt, if_pos hlt]
        have hadv := nextStart_gt text chunkSize overlap start
        have : text.length - nextStart text chunkSize overlap start ≤ f := by omega
        have hg : text.length - nextStart text chunkSize overlap start ≤ g := by omega
        rw [ih _ _ this hg]
      · rw [if_neg hlt, if_neg hlt]

theorem chunkSpans_length_le (text : List Char) (chunkSize overlap : Nat) :
    ∀ fuel start, (chunkSpansAux text chunkSize overlap fuel start).length
      ≤ text.length - start := by
  intro fuel
  induction fuel with
  | zero =>
    intro start
    simp [chunkSpansAux]
  | succ f ih =>
    intro start
    simp only [chunkSpansAux]
    by_cases hlt : start < text.length
    · rw [if_pos hlt]
      have hadv := nextStart_gt text chunkSize overlap start
      have := ih (nextStart text chunkSize overlap start)
      simp only [List.length_cons]
      omega
    · rw [if_neg hlt]
      simp

theorem chunkSpansAux_cover (text : List Char) (chunkSize overlap : Nat)
    (hcs : 1 ≤ chunkSize) :
    ∀ fuel start p, text.length - start ≤ fuel → start ≤ p → p < text.length →
      ∃ a b, (a, b) ∈ chunkSpansAux text chunkSize overlap fuel start
        ∧ a ≤ p ∧ p < b := by
  intro fuel
  induction fuel with
  | zero =>
    intro start p hf hsp hp
    omega
  | succ f ih =>
    intro start p hf hsp hp
    have hlt : start < text.length := by omega
    simp only [chunkSpansAux]
    rw [if_pos hlt]
    by_cases hpe : p < chunkEnd text chunkSize start
    · exact ⟨start, chunkEnd text chunkSize start, List.mem_cons_self _ _, hsp, hpe⟩
    · have hadv := nextStart_gt text chunkSize overlap start
      have hle := nextStart_le_chunkEnd text chunkSize overlap start hcs
      have hsp' : nextStart text chunkSize overlap start ≤ p := by omega
      have hf' : text.length - nextStart text chunkSize overlap start ≤ f := by omega
      obtain ⟨a, b, hmem, hab⟩ := ih (nextStart text chunkSize overlap start) p hf' hsp' hp
      exact ⟨a, b, List.mem_cons_of_mem _ hmem, hab⟩

/-- Claim C3, counterexample: with `t = " a"` (length 2 ≤ chunk_size) the
single returned chunk is `" a"` itself, not the trimmed `"a"` the claim
requires, and the two differ. -/
theorem c3_counterexample :
    chunk_text (" a".data) 512 50 = [" a".data]
    ∧ pyStrip (" a".data) = ("a".data)
    ∧ (" a".data) ≠ ("a".data) := by
  refine ⟨by decide, by decide, by decide⟩

/-- Claim C3, amended: for every text `t` with `len(t) ≤ chunk_size`,
`chunk_text` returns exactly one chunk equal to `t` verbatim (not
trimmed), and zero chunks when `t` is empty. -/
theorem c3_short_text_returned_whole (text : List Char) (chunkSize overlap : Nat)
    (h : text.length ≤ chunkSize) :
    chunk_text text chunkSize overlap = if text = [] then [] else [text] := by
  unfold chunk_text
  rw [if_pos h]

theorem c3_short_text_returned_whole_witness :
    (" a".data).length ≤ 512
    ∧ chunk_text (" a".data) 512 50 = (if " a".data = ([] : List Char) then [] else [" a".data]) :=
  ⟨by decide, c3_short_text_returned_whole (" a".data) 512 50 (by decide)⟩

/-- Claim C4, counterexample: on the whitespace-only text `"  "` with
`chunk_size = 1`, every window's stripped slice is empty, so `chunk_text`
produces no chunk at all and position 0 of the text is covered by no
produced chunk's span. -/
theorem c4_counterexample :
    (¬ ∀ p, p < ("  ".data).length →
        ∃ s e, (s, e) ∈ producedSpans ("  ".data) 1 0 ∧ s ≤ p ∧ p < e)
    ∧ chunk_text ("  ".data) 1 0 = [] := by
  constructor
  · intro h
    obtain ⟨s, e, hmem, _, _⟩ := h 0 (by decide)
    rw [show producedSpans ("  ".data) 1 0 = [] from by decide] at hmem
    exact absurd hmem (List.not_mem_nil _)
  · decide

/-- Claim C4, amended: for every text and `chunk_size ≥ 1`, the chunk
windows walked by the loop (including the single whole-text window in
the short case) cover every character position of the text: adjacent
windows overlap or touch with no gap.  Windows whose stripped slice is
empty are dropped from the returned chunk list, so only those positions
lying in some window with non-whitespace content are covered by a
returned chunk. -/
theorem c4_windows_cover (text : List Char) (chunkSize overlap : Nat)
    (hcs : 1 ≤ chunkSize) :
    ∀ p, p < text.length →
      ∃ s e, (s, e) ∈ chunkWindows text chunkSize overlap ∧ s ≤ p ∧ p < e := by
  intro p hp
  unfold chunkWindows
  by_cases hshort : text.length ≤ chunkSize
  · rw [if_pos hshort]
    have hne : text ≠ [] := by
      intro hnil
      rw [hnil] at hp
      simp at hp
    rw [if_neg hne]
    exact ⟨0, text.length, List.mem_singleton.mpr rfl, Nat.zero_le p, hp⟩
  · rw [if_neg hshort]
    unfold chunkSpans
    exact chunkSpansAux_cover text chunkSize overlap hcs (text.length - 0) 0 p
      le_rfl (Nat.zero_le p) hp

theorem c4_windows_cover_witness :
    1 ≤ 3
    ∧ ∀ p, p < ("ab cd ef".data).length →
        ∃ s e, (s, e) ∈ chunkWindows ("ab cd ef".data) 3 1 ∧ s ≤ p ∧ p < e :=
  ⟨by decide, c4_windows_cover ("ab cd ef".data) 3 1 (by decide)⟩

/-- Claim C5: for every text, chunk size and overlap (including
`overlap ≥ chunk_size`), each loop iteration advances `start` by at
least 1, the fuel `text.length - start` given to the structural model is
always sufficient (any larger fuel computes the same windows, i.e. the
walk exits within `text.length - start` steps), and the number of
iterations is bounded by the remaining text length — the loop always
terminates. -/
theorem c5_loop_always_advances (text : List Char) (chunkSize overlap start : Nat) :
    start < nextStart text chunkSize overlap start
    ∧ (∀ fuel, text.length - start ≤ fuel →
        chunkSpansAux text chunkSize overlap fuel start
          = chunkSpans text chunkSize overlap start)
    ∧ (chunkSpans text chunkSize overlap start).length ≤ text.length - start := by
  refine ⟨nextStart_gt text chunkSize overlap start, ?_, ?_⟩
  · intro fuel hf
    exact chunkSpansAux_fuel text chunkSize overlap fuel (text.length - start) start hf le_rfl
  · exact chunkSpans_length_le text chunkSize overlap (text.length - start) start

theorem c5_loop_always_advances_witness :
    0 < nextStart ("ab".data) 1 5 0
    ∧ ("ab".data).length - 0 ≤ 7
    ∧ chunkSpansAux ("ab".data) 1 5 7 0 = chunkSpans ("ab".data) 1 5 0
    ∧ (chunkSpans ("ab".data) 1 5 0).length ≤ ("ab".data).length - 0 := by
  obtain ⟨h1, h2, h3⟩ := c5_loop_always_advances ("ab".data) 1 5 0
  exact ⟨h1, by decide, h2 7 (by decide), h3⟩

theorem length_filter_partition (l : List α) (p : α → Bool) :
    (l.filter p).length + (l.filter (fun a => !(p a))).length = l.length := by
  induction l with
  | nil => simp
  | cons a rest ih =>
    by_cases h : p a = true
    · simp [List.filter, h, ih]
      omega
    · have h' : p a = false := by
        cases hpa : p a
        · rfl
        · exact absurd hpa h
      simp [List.filter, h', ih]
      omega

/-- Normal form of `_vector_filter_content`'s success path: the
vector-found eligible items (in eligible-list order) truncated to
`max_items`, followed by the remaining eligible items filling up to
`max_items`. -/
theorem vectorFilterContent_eq (items : List ContentItem) (rs : List (Option Nat))
    (maxItems : Nat) :
    vectorFilterContent items rs maxItems
      = (items.filter
            (fun it => ((rs.take maxItems).filterMap id).contains it.id)).take maxItems
        ++ (items.filter
            (fun it => !(((rs.take maxItems).filterMap id).contains it.id))).take
          (maxItems - (items.filter
            (fun it => ((rs.take maxItems).filterMap id).contains it.id)).length) := by
  unfold vectorFilterContent
  simp only
  set A := items.filter
    (fun it => ((rs.take maxItems).filterMap id).contains it.id) with hA
  set B := items.filter
    (fun it => !(((rs.take maxItems).filterMap id).contains it.id)) with hB
  by_cases h : A.length < maxItems
  · rw [if_pos h]
    have hlen : (A ++ B.take (maxItems - A.length)).length ≤ maxItems := by
      have := List.length_take (maxItems - A.length) B
      simp only [List.length_append]
      omega
    rw [List.take_of_length_le hlen, List.take_of_length_le (Nat.le_of_lt h)]
  · rw [if_neg h]
    have hz : maxItems - A.length = 0 := by omega
    rw [hz]
    simp

/-- Claim C1, counterexample: two eligible items in recency order
`[1, 2]`, both found by the vector search which returned item 2 first
(more similar).  The claim requires the result to start with item 2,
but the code preserves the recency order and returns `[1, 2]`. -/
theorem c1_counterexample :
    vectorFilterContent [⟨1⟩, ⟨2⟩] [some 2, some 1] 2 = [⟨1⟩, ⟨2⟩]
    ∧ specRankC1 [⟨1⟩, ⟨2⟩] [some 2, some 1] 2 = [⟨2⟩, ⟨1⟩]
    ∧ vectorFilterContent [⟨1⟩, ⟨2⟩] [some 2, some 1] 2
        ≠ specRankC1 [⟨1⟩, ⟨2⟩] [some 2, some 1] 2 := by
  refine ⟨by decide, by decide, by decide⟩

/-- Claim C1, amended: the items found via vector search appear first in
the returned result, but in the order they appear in the eligible
(recency-ordered) list — not in the order the search returned them —
and only afterwards are the remaining eligible items backfilled in
recency order, without duplicates (given distinct item ids), until the
per-digest maximum is reached or eligible items are exhausted. -/
theorem c1_vector_found_first_in_recency_order (items : List ContentItem)
    (rs : List (Option Nat)) (maxItems : Nat) :
    vectorFilterContent items rs maxItems
      = (items.filter
            (fun it => ((rs.take maxItems).filterMap id).contains it.id)).take maxItems
        ++ (items.filter
            (fun it => !(((rs.take maxItems).filterMap id).contains it.id))).take
          (maxItems - (items.filter
            (fun it => ((rs.take maxItems).filterMap id).contains it.id)).length)
    ∧ (vectorFilterContent items rs maxItems).length = min maxItems items.length
    ∧ ((items.map ContentItem.id).Nodup →
        ((vectorFilterContent items rs maxItems).map ContentItem.id).Nodup) := by
  set p : ContentItem → Bool :=
    fun it => ((rs.take maxItems).filterMap id).contains it.id with hp
  set A := items.filter p with hA
  set B := items.filter (fun it => !(p it)) with hB
  have hnf := vectorFilterContent_eq items rs maxItems
  rw [← hp, ← hA, ← hB] at hnf
  have hpart : A.length + B.length = items.length := by
    rw [hA, hB]
    exact length_filter_partition items p
  refine ⟨hnf, ?_, ?_⟩
  · rw [hnf]
    simp only [List.length_append, List.length_take]
    omega
  · intro hnd
    rw [hnf]
    have hsub : (A.take maxItems ++ B.take (maxItems - A.length)).Sublist (A ++ B) :=
      List.Sublist.append (List.take_sublist _ _) (List.take_sublist _ _)
    have hAB : ((A ++ B).map ContentItem.id).Nodup := by
      rw [List.map_append]
      refine List.Nodup.append ?_ ?_ ?_
      · exact List.Nodup.sublist
          (List.Sublist.map ContentItem.id (List.filter_sublist items)) hnd
      · exact List.Nodup.sublist
          (List.Sublist.map ContentItem.id (List.filter_sublist items)) hnd
      · intro x hxA hxB
        obtain ⟨a, haA, hax⟩ := List.mem_map.mp hxA
        obtain ⟨b, hbB, hbx⟩ := List.mem_map.mp hxB
        rw [hA, List.mem_filter] at haA
        rw [hB, List.mem_filter] at hbB
        have hpb : p b = false := by
          have hb := hbB.2
          simp only [Bool.not_eq_true'] at hb
          exact hb
        have heq : p a = p b := by
          simp only [hp]
          rw [hax, hbx]
        rw [haA.2, hpb] at heq
        exact absurd heq (by decide)
    exact List.Nodup.sublist (List.Sublist.map ContentItem.id hsub) hAB

theorem c1_vector_found_first_in_recency_order_witness :
    (([⟨1⟩, ⟨2⟩, ⟨3⟩] : List ContentItem).map ContentItem.id).Nodup
    ∧ ((vectorFilterContent [⟨1⟩, ⟨2⟩, ⟨3⟩] [some 2] 2).map ContentItem.id).Nodup
    ∧ (vectorFilterContent [⟨1⟩, ⟨2⟩, ⟨3⟩] [some 2] 2).length
        = min 2 ([⟨1⟩, ⟨2⟩, ⟨3⟩] : List ContentItem).length := by
  obtain ⟨h1, h2, h3⟩ :=
    c1_vector_found_first_in_recency_order [⟨1⟩, ⟨2⟩, ⟨3⟩] [some 2] 2
  exact ⟨by decide, h3 (by decide), h2⟩

/-- Claim C9: when the vector-similarity search fails — either it
raises (the `except` path) or it degrades to an empty result list (as
`search_similar_content` does on any backend error) — the retrieval
does not fail: it returns the most recent eligible items truncated to
the per-digest maximum. -/
theorem c9_search_failure_degrades_to_recency (items : List ContentItem)
    (maxItems : Nat) :
    vectorFilterContentRun items (Except.error ()) maxItems = items.take maxItems
    ∧ vectorFilterContentRun items (Except.ok []) maxItems = items.take maxItems := by
  constructor
  · rfl
  · show vectorFilterContent items [] maxItems = items.take maxItems
    rw [vectorFilterContent_eq]
    simp [List.filter_true]

/-- Claim C2, counterexample: one chunk against two returned vectors.
The method returns `false` and stores nothing, but the item's
processing state is left exactly as it was (`"processing"`, as set by
the caller) — it is not marked `"failed"`; that happens only on the
exception path. -/
theorem c2_counterexample :
    processContentItem 1 [['a']] (Except.ok [[0], [1]])
        ⟨[], [], "processing", false⟩
      = (false, ⟨[], [], "processing", false⟩)
    ∧ ("processing" : String) ≠ "failed" := by
  refine ⟨by decide, by decide⟩

/-- Claim C2, amended: on an embedding count mismatch the method aborts
before storing any vector or chunk record and reports failure (returns
`false`), leaving the whole state — including the processing status —
unchanged; the status is set to `"failed"` only when an exception is
raised, not on the mismatch path. -/
theorem c2_mismatch_aborts_without_partial_commit (itemId : Nat)
    (chunks : List (List Char)) (embeds : List (List Int)) (st : IndexState)
    (h : embeds.length ≠ chunks.length) :
    processContentItem itemId chunks (Except.ok embeds) st = (false, st) := by
  unfold processContentItem
  by_cases hc : chunks.isEmpty
  · rw [if_pos hc]
  · rw [if_neg hc]
    simp only
    rw [if_pos h]

theorem c2_mismatch_aborts_without_partial_commit_witness :
    ([([0] : List Int), [1]]).length ≠ ([['a']] : List (List Char)).length
    ∧ processContentItem 1 [['a']] (Except.ok [[0], [1]])
        ⟨[], [], "processing", false⟩
      = (false, ⟨[], [], "processing", false⟩) :=
  ⟨by decide,
    c2_mismatch_aborts_without_partial_commit 1 [['a']] [[0], [1]]
      ⟨[], [], "processing", false⟩ (by decide)⟩

/-- Claim C7: the in-memory backend's filter match holds iff every
filtered key is present in the metadata with a value that is a member
of a list filter value, respectively equal to a scalar filter value; a
record missing any filtered key never matches. -/
theorem c7_matches_filters_iff (md : List (String × Prim))
    (fs : List (String × FVal)) :
    matchesFilters md fs = true
      ↔ ∀ kv ∈ fs, ∃ m, md.lookup kv.1 = some m ∧
          (match kv.2 with
           | FVal.scalar p => m = p
           | FVal.list ps => m ∈ ps) := by
  induction fs with
  | nil => simp [matchesFilters]
  | cons kv rest ih =>
    obtain ⟨k, v⟩ := kv
    rw [List.forall_mem_cons]
    simp only [matchesFilters]
    cases hlk : md.lookup k with
    | none =>
      simp only [hlk]
      constructor
      · intro h
        exact absurd h (by decide)
      · intro ⟨⟨m, hm, _⟩, _⟩
        exact absurd hm (by simp)
    | some m =>
      cases v with
      | scalar p =>
        simp only [hlk]
        by_cases hmp : m = p
        · rw [if_pos hmp, ih]
          constructor
          · intro h
            exact ⟨⟨m, rfl, hmp⟩, h⟩
          · exact fun h => h.2
        · rw [if_neg hmp]
          constructor
          · intro h
            exact absurd h (by decide)
          · intro ⟨⟨m', hm', hm'p⟩, _⟩
            rw [Option.some_inj] at hm'
            rw [← hm'] at hm'p
            exact absurd hm'p hmp
      | list ps =>
        simp only [hlk]
        by_cases hmp : ps.contains m = true
        · rw [if_pos hmp, ih]
          have hmem : m ∈ ps := by
            simpa using hmp
          constructor
          · intro h
            exact ⟨⟨m, rfl, hmem⟩, h⟩
          · exact fun h => h.2
        · rw [if_neg hmp]
          constructor
          · intro h
            exact absurd h (by decide)
          · intro ⟨⟨m', hm', hm'p⟩, _⟩
            rw [Option.some_inj] at hm'
            rw [← hm'] at hm'p
            have : ps.contains m = true := by
              simpa using hm'p
            exact absurd this hmp

/-- Claim C8: searching a FAISS index that holds zero entries (and so an
empty position-to-id map, as built by `_setup_faiss`) returns the empty
result list for every query, limit and filter — FAISS pads missing
results with index `-1`, and `-1` is never in `id_map`, so every raw
result is skipped. -/
theorem c8_empty_index_search_returns_empty (st : FaissState) (q : List Int)
    (limit : Nat) (filters : Option (List (String × FVal)))
    (_h1 : st.entries = []) (h2 : st.idMap = []) :
    searchFaiss st q limit filters = [] := by
  unfold searchFaiss
  rw [h2]
  rw [List.filterMap_eq_nil_iff]
  intro si _
  simp [List.lookup]

theorem c8_empty_index_search_returns_empty_witness :
    (FaissState.mk [] [] []).entries = []
    ∧ (FaissState.mk [] [] []).idMap = []
    ∧ searchFaiss (FaissState.mk [] [] []) [3, 1] 5
        (some [("category", FVal.scalar (Prim.pStr "ai"))]) = [] :=
  ⟨rfl, rfl,
    c8_empty_index_search_returns_empty (FaissState.mk [] [] []) [3, 1] 5
      (some [("category", FVal.scalar (Prim.pStr "ai"))]) rfl rfl⟩

theorem prefSetattr_keys (rec : List (String × Prim)) (k : String) (v : Prim) :
    (prefSetattr rec k v).map Prod.fst = rec.map Prod.fst := by
  unfold prefSetattr
  rw [List.map_map]
  apply List.map_congr_left
  intro p _
  simp only [Function.comp]
  by_cases h : p.1 = k
  · rw [if_pos h]
    exact h.symm
  · rw [if_neg h]

theorem prefHasattr_setattr (rec : List (String × Prim)) (k k' : String) (v : Prim) :
    prefHasattr (prefSetattr rec k v) k' = prefHasattr rec k' := by
  unfold prefHasattr
  rw [prefSetattr_keys]

theorem applyUpdates_ignores_unknown_keys (updates : List (String × Prim))
    (rec : List (String × Prim)) :
    applyUpdates rec updates
      = applyUpdates rec (updates.filter (fun kv => prefHasattr rec kv.1)) := by
  induction updates generalizing rec with
  | nil => rfl
  | cons kv rest ih =>
    by_cases h : prefHasattr rec kv.1
    · rw [show (kv :: rest).filter (fun kv => prefHasattr rec kv.1)
          = kv :: rest.filter (fun kv => prefHasattr rec kv.1) from
        List.filter_cons_of_pos h]
      show applyUpdates (if prefHasattr rec kv.1 then prefSetattr rec kv.1 kv.2 else rec) rest
        = applyUpdates (if prefHasattr rec kv.1 then prefSetattr rec kv.1 kv.2 else rec)
            (rest.filter (fun kv => prefHasattr rec kv.1))
      rw [if_pos h]
      have hcong : rest.filter (fun kv' => prefHasattr rec kv'.1)
          = rest.filter (fun kv' => prefHasattr (prefSetattr rec kv.1 kv.2) kv'.1) :=
        List.filter_congr (fun x _ => (prefHasattr_setattr rec kv.1 x.1 kv.2).symm)
      rw [hcong]
      exact ih (prefSetattr rec kv.1 kv.2)
    · have h' : prefHasattr rec kv.1 = false := by
        cases hh : prefHasattr rec kv.1
        · rfl
        · exact absurd hh h
      rw [show (kv :: rest).filter (fun kv => prefHasattr rec kv.1)
          = rest.filter (fun kv => prefHasattr rec kv.1) from
        List.filter_cons_of_neg (by rw [h']; exact Bool.false_ne_true)]
      show applyUpdates (if prefHasattr rec kv.1 then prefSetattr rec kv.1 kv.2 else rec) rest
        = applyUpdates rec (rest.filter (fun kv => prefHasattr rec kv.1))
      rw [h']
      simp only [Bool.false_eq_true, if_false]
      exact ih rec

/-- Claim C10: `update_user_preferences` succeeds (returns `True`) iff
the user has a preference record and the commit succeeds — even when no
update key matched any attribute; entries whose key is not an attribute
of the record are silently dropped (filtering them out of the update
map changes nothing); `False` arises only from a missing record or a
failed database operation. -/
theorem c10_update_preferences_ignores_unknown_keys
    (dbPrefs : Option (List (String × Prim))) (updates : List (String × Prim))
    (now : Prim) (commitOk : Bool) :
    ((updateUserPreferences dbPrefs updates now commitOk).1 = true
      ↔ dbPrefs.isSome = true ∧ commitOk = true)
    ∧ ∀ rec, dbPrefs = some rec →
        applyUpdates rec updates
          = applyUpdates rec (updates.filter (fun kv => prefHasattr rec kv.1)) := by
  constructor
  · cases dbPrefs with
    | none => simp [updateUserPreferences]
    | some rec =>
      cases commitOk with
      | false => simp [updateUserPreferences]
      | true => simp [updateUserPreferences]
  · intro rec _
    exact applyUpdates_ignores_unknown_keys updates rec

theorem c10_update_preferences_ignores_unknown_keys_witness :
    (updateUserPreferences (some [("content_depth", Prim.pStr "summary")])
        [("no_such_attribute", Prim.pInt 3)] Prim.pNone true).1 = true
    ∧ applyUpdates [("content_depth", Prim.pStr "summary")]
        [("no_such_attribute", Prim.pInt 3)]
      = applyUpdates [("content_depth", Prim.pStr "summary")]
          (([("no_such_attribute", Prim.pInt 3)]).filter
            (fun kv => prefHasattr [("content_depth", Prim.pStr "summary")] kv.1)) := by
  obtain ⟨h1, h2⟩ := c10_update_preferences_ignores_unknown_keys
    (some [("content_depth", Prim.pStr "summary")])
    [("no_such_attribute", Prim.pInt 3)] Prim.pNone true
  exact ⟨h1.mpr ⟨rfl, rfl⟩, h2 _ rfl⟩

theorem batchesAux_congr :
    ∀ f1 f2 (l : List α), l.length ≤ f1 → l.length ≤ f2 →
      batchesAux f1 l = batchesAux f2 l := by
  intro f1
  induction f1 with
  | zero =>
    intro f2 l h1 h2
    have : l = [] := List.length_eq_zero.mp (by omega)
    subst this
    cases f2 with
    | zero => rfl
    | succ g => simp [batchesAux]
  | succ f ih =>
    intro f2 l h1 h2
    cases f2 with
    | zero =>
      have : l = [] := List.length_eq_zero.mp (by omega)
      subst this
      simp [batchesAux]
    | succ g =>
      cases l with
      | nil => simp [batchesAux]
      | cons a t =>
        simp only [batchesAux, List.isEmpty_cons, Bool.false_eq_true, if_false]
        have hd : ((a :: t).drop 100).length ≤ f := by
          simp only [List.length_drop, List.length_cons]
          simp only [List.length_cons] at h1
          omega
        have hg : ((a :: t).drop 100).length ≤ g := by
          simp only [List.length_drop, List.length_cons]
          simp only [List.length_cons] at h2
          omega
        rw [ih g ((a :: t).drop 100) hd hg]

theorem batchesAux_eq_batchesOf (fuel : Nat) (l : List α) (h : l.length ≤ fuel) :
    batchesAux fuel l = batchesOf l :=
  batchesAux_congr fuel l.length l h le_rfl

theorem batchesOf_ne_nil (l : List α) (h : l ≠ []) :
    batchesOf l = l.take 100 :: batchesOf (l.drop 100) := by
  cases l with
  | nil => exact absurd rfl h
  | cons a t =>
    show batchesAux (a :: t).length (a :: t) = _
    have hlen : (a :: t).length = t.length + 1 := List.length_cons a t
    rw [hlen]
    simp only [batchesAux, List.isEmpty_cons, Bool.false_eq_true, if_false]
    rw [batchesAux_eq_batchesOf t.length ((a :: t).drop 100)
      (by simp only [List.length_drop, List.length_cons]; omega)]

theorem flatten_batchesOf :
    ∀ fuel (l : List α), l.length ≤ fuel → (batchesOf l).flatten = l := by
  intro fuel
  induction fuel with
  | zero =>
    intro l h
    have : l = [] := List.length_eq_zero.mp (by omega)
    subst this
    rfl
  | succ f ih =>
    intro l h
    cases l with
    | nil => rfl
    | cons a t =>
      rw [batchesOf_ne_nil (a :: t) (by simp)]
      rw [List.flatten_cons]
      rw [ih ((a :: t).drop 100) (by simp only [List.length_drop, List.length_cons] at h ⊢; omega)]
      exact List.take_append_drop 100 (a :: t)

theorem length_batchesOf :
    ∀ fuel (l : List α), l.length ≤ fuel →
      (batchesOf l).length = (l.length + 99) / 100 := by
  intro fuel
  induction fuel with
  | zero =>
    intro l h
    have : l = [] := List.length_eq_zero.mp (by omega)
    subst this
    simp [batchesOf, batchesAux]
  | succ f ih =>
    intro l h
    cases l with
    | nil => simp [batchesOf, batchesAux]
    | cons a t =>
      rw [batchesOf_ne_nil (a :: t) (by simp)]
      rw [List.length_cons]
      rw [ih ((a :: t).drop 100) (by simp only [List.length_drop, List.length_cons] at h ⊢; omega)]
      rw [List.length_drop]
      simp only [List.length_cons]
      omega

theorem batchesOf_size_le :
    ∀ fuel (l : List α), l.length ≤ fuel →
      ∀ b ∈ batchesOf l, b.length ≤ 100 := by
  intro fuel
  induction fuel with
  | zero =>
    intro l h b hb
    have : l = [] := List.length_eq_zero.mp (by omega)
    subst this
    simp [batchesOf, batchesAux] at hb
  | succ f ih =>
    intro l h b hb
    cases l with
    | nil => simp [batchesOf, batchesAux] at hb
    | cons a t =>
      rw [batchesOf_ne_nil (a :: t) (by simp)] at hb
      rcases List.mem_cons.mp hb with hb | hb
      · subst hb
        rw [List.length_take]
        omega
      · exact ih ((a :: t).drop 100) (by simp only [List.length_drop, List.length_cons] at h ⊢; omega) b hb

theorem openaiEmbedAux_eq (api : List α → List β) (total : Nat) :
    ∀ fuel (l : List α), l.length ≤ fuel →
      openaiEmbedAux api total fuel l
        = ((batchesOf l).flatMap
            (fun b => EmbedEvent.call b
              :: (if 100 < total then [EmbedEvent.pause] else [])),
           (batchesOf l).flatMap api) := by
  intro fuel
  induction fuel with
  | zero =>
    intro l h
    have : l = [] := List.length_eq_zero.mp (by omega)
    subst this
    rfl
  | succ f ih =>
    intro l h
    cases l with
    | nil => rfl
    | cons a t =>
      rw [batchesOf_ne_nil (a :: t) (by simp)]
      simp only [openaiEmbedAux, List.isEmpty_cons, Bool.false_eq_true, if_false]
      rw [ih ((a :: t).drop 100) (by simp only [List.length_drop, List.length_cons] at h ⊢; omega)]
      simp [List.flatMap_cons]

/-- Claim C6: for every input embedded via the hosted-API backend, the
batches are the consecutive 100-element slices of the input in order
(their concatenation is the input and each has at most 100 elements),
exactly `⌈n/100⌉` batch calls are issued, a pause follows each call —
hence lies between consecutive calls — exactly when more than one batch
is needed, and, given that the API returns one vector per input of each
batch, the returned vectors are the in-order concatenation of the batch
results, one per input text. -/
theorem c6_openai_batches_in_order (api : List α → List β) (texts : List α)
    (h : ∀ b, (api b).length = b.length) :
    (generateOpenaiEmbeddings api texts).1
      = (batchesOf texts).flatMap
          (fun b => EmbedEvent.call b
            :: (if 100 < texts.length then [EmbedEvent.pause] else []))
    ∧ (generateOpenaiEmbeddings api texts).2 = (batchesOf texts).flatMap api
    ∧ (batchesOf texts).length = (texts.length + 99) / 100
    ∧ (batchesOf texts).flatten = texts
    ∧ (∀ b ∈ batchesOf texts, b.length ≤ 100)
    ∧ ((generateOpenaiEmbeddings api texts).2).length = texts.length := by
  have hmain := openaiEmbedAux_eq api texts.length texts.length texts le_rfl
  have h1 : (generateOpenaiEmbeddings api texts).1
      = (batchesOf texts).flatMap
          (fun b => EmbedEvent.call b
            :: (if 100 < texts.length then [EmbedEvent.pause] else [])) := by
    show (openaiEmbedAux api texts.length texts.length texts).1 = _
    rw [hmain]
  have h2 : (generateOpenaiEmbeddings api texts).2
      = (batchesOf texts).flatMap api := by
    show (openaiEmbedAux api texts.length texts.length texts).2 = _
    rw [hmain]
  refine ⟨h1, h2, length_batchesOf texts.length texts le_rfl,
    flatten_batchesOf texts.length texts le_rfl,
    batchesOf_size_le texts.length texts le_rfl, ?_⟩
  rw [h2]
  rw [List.length_flatMap]
  have hcong : (batchesOf texts).map (List.length ∘ api)
      = (batchesOf texts).map List.length :=
    List.map_congr_left (fun b _ => h b)
  rw [hcong]
  rw [← List.length_flatten, flatten_batchesOf texts.length texts le_rfl]

set_option maxRecDepth 10000 in
theorem c6_openai_batches_in_order_witness :
    (∀ b, (demoApi b).length = b.length)
    ∧ ((generateOpenaiEmbeddings demoApi demoTexts).1
        = (batchesOf demoTexts).flatMap
            (fun b => EmbedEvent.call b
              :: (if 100 < demoTexts.length then [EmbedEvent.pause] else []))
      ∧ (generateOpenaiEmbeddings demoApi demoTexts).2
          = (batchesOf demoTexts).flatMap demoApi
      ∧ (batchesOf demoTexts).length = (demoTexts.length + 99) / 100
      ∧ (batchesOf demoTexts).flatten = demoTexts
      ∧ (∀ b ∈ batchesOf demoTexts, b.length ≤ 100)
      ∧ ((generateOpenaiEmbeddings demoApi demoTexts).2).length
          = demoTexts.length)
    ∧ (batchesOf demoTexts).map List.length = [100, 50] := by
  have h : ∀ b, (demoApi b).length = b.length := by
    intro b
    simp [demoApi]
  refine ⟨h, c6_openai_batches_in_order demoApi demoTexts h, by decide⟩

end AutoCurate
